import Mathlib

/-!
Verification development for the family-expense-bot ledger engine.

Strings are modelled as `List Char`.  JavaScript's `String.prototype.trim`,
`split('\n')` and the regular expressions used by the sources are embedded as
executable functions on character lists.  All `new Date()` instants produced
during one call of a store operation are modelled by a single `Nat` parameter;
timestamps never influence control flow in the sources.
-/

namespace FEB

/-- Character-list representation of a string literal. -/
def str (s : String) : List Char := s.data

/-- Right trim: drop trailing whitespace (JavaScript `trimEnd` semantics,
used as half of `trim`). -/
def trimRight (l : List Char) : List Char :=
  (l.reverse.dropWhile Char.isWhitespace).reverse

/-- Model of JavaScript `String.prototype.trim`: strip leading and trailing
whitespace. -/
def trim (l : List Char) : List Char :=
  trimRight (l.dropWhile Char.isWhitespace)

/-- Model of JavaScript `split('\n')`: split at every newline, keeping empty
segments (so `"" ↦ [""]`, `"\n" ↦ ["", ""]`). -/
def splitLines : List Char → List (List Char)
  | [] => [[]]
  | c :: rest =>
    let r := splitLines rest
    if c = '\n' then [] :: r
    else (c :: r.headD []) :: r.tail

/-- Numeric value of a decimal digit string (JavaScript `parseInt(s, 10)` on a
string of ASCII digits). -/
def natOfDigits (l : List Char) : Nat :=
  l.foldl (fun a c => 10 * a + (c.toNat - 48)) 0

/-- Decimal rendering helper with structural fuel (the fuel is always at least
the number rendered, so it never runs out). -/
def natToDigitsCore : Nat → Nat → List Char
  | 0, _ => []
  | fuel + 1, n =>
    if n = 0 then []
    else natToDigitsCore fuel (n / 10) ++ [Nat.digitChar (n % 10)]

/-- Decimal rendering of a natural number (JavaScript number-to-string in a
template literal, for the non-negative integers this program handles). -/
def natToDigits (n : Nat) : List Char :=
  if n = 0 then ['0'] else natToDigitsCore n n

/-! ## Data model (spec section 3, `src/src/database.js`) -/

/-- An expense item: `{ name, price }`. -/
structure Item where
  name : List Char
  price : Nat
deriving DecidableEq

/-- A date bucket inside the ledger: `{ date, items, timestamp }`. -/
structure DateEntry where
  date : List Char
  items : List Item
  timestamp : Nat
deriving DecidableEq

/-- The aggregated ledger document.  `lastUpdated` is optional because the
field is absent before the first write. -/
structure LedgerData where
  entries : List DateEntry
  lastUpdated : Option Nat
deriving DecidableEq

/-- The backup document: a snapshot of the ledger plus `backupTime`. -/
structure BackupData where
  entries : List DateEntry
  lastUpdated : Option Nat
  backupTime : Nat
deriving DecidableEq

/-- The document store as seen by `ExpenseDatabase`: the `aggregated` document
and the `backup` document, each possibly absent. -/
structure StoreState where
  doc : Option LedgerData
  backup : Option BackupData
deriving DecidableEq

/-- Result record of `addExpenses` (success path). -/
structure AddResult where
  success : Bool
  totalItems : Nat
  total : Nat
deriving DecidableEq

/-- Result record of `undoLastChange`. -/
structure UndoResult where
  success : Bool
  message : List Char
deriving DecidableEq

/-- The entry-list update performed by `addExpenses` (database.js lines 29-43):
`findIndex` locates the first entry with the exact same date string; if found,
the new items are pushed onto the end of its item array and its timestamp is
bumped; otherwise a fresh entry is appended at the end. -/
def addToEntries (date : List Char) (items : List Item) (t : Nat) :
    List DateEntry → List DateEntry
  | [] => [⟨date, items, t⟩]
  | e :: rest =>
    if e.date == date then ⟨e.date, e.items ++ items, t⟩ :: rest
    else e :: addToEntries date items t rest

/-- Model of `ExpenseDatabase.addExpenses` (database.js lines 11-61, success
path): read the current document (absence is `{entries: []}`), write the
pre-change state into the backup slot, merge the items, write back with a fresh
`lastUpdated`. -/
def addExpenses (s : StoreState) (items : List Item) (date : List Char)
    (t : Nat) : StoreState × AddResult :=
  let currentData := s.doc.getD ⟨[], none⟩
  let backup : BackupData := ⟨currentData.entries, currentData.lastUpdated, t⟩
  let newEntries := addToEntries date items t currentData.entries
  (⟨some ⟨newEntries, some t⟩, some backup⟩,
   ⟨true, items.length, items.foldl (fun a i => a + i.price) 0⟩)

/-- Model of `ExpenseDatabase.getAggregatedExpenses` (database.js lines
63-77): returns the stored ledger, or `{entries: []}` when absent. -/
def getAggregatedExpenses (s : StoreState) : LedgerData :=
  s.doc.getD ⟨[], none⟩

/-- The entry list a reader observes in a given store state. -/
def entriesView (s : StoreState) : List DateEntry :=
  (getAggregatedExpenses s).entries

/-- Model of `ExpenseDatabase.undoLastChange` (database.js lines 95-127): if
no backup exists report failure; otherwise write the backup content minus
`backupTime` back into the ledger document with a fresh `lastUpdated`.  The
backup slot is left untouched. -/
def undoLastChange (s : StoreState) (t : Nat) : StoreState × UndoResult :=
  match s.backup with
  | none => (s, ⟨false, str "沒有可以回復的記錄"⟩)
  | some b =>
    (⟨some ⟨b.entries, some t⟩, s.backup⟩, ⟨true, str "已回復到上一個狀態"⟩)

/-- Model of `ExpenseDatabase.formatAggregatedText` (database.js lines 79-93):
render each entry as its date line followed by one `name price` line per item,
then trim the whole text; an empty ledger renders as the fixed sentinel. -/
def formatAggregatedText (data : LedgerData) : List Char :=
  if data.entries = [] then str "目前沒有記錄"
  else
    trim (data.entries.flatMap fun entry =>
      entry.date ++ '\n' :: entry.items.flatMap fun item =>
        item.name ++ ' ' :: (natToDigits item.price ++ ['\n']))

/-! ## Expense line parser (`src/src/parser.js`, spec section 4.1) -/

/-- The maximal trailing run of ASCII digits of a line: what the regular
expression `(\d+)$` captures when it matches (it matches iff the run is
non-empty). -/
def trailingDigitRun (l : List Char) : List Char :=
  (l.reverse.takeWhile Char.isDigit).reverse

/-- The line with its maximal trailing digit run removed. -/
def stripTrailingDigitRun (l : List Char) : List Char :=
  (l.reverse.dropWhile Char.isDigit).reverse

/-- Loop body of `parseExpenseMessage` for one line (parser.js lines 138-154):
trim the line, capture the maximal trailing digit run as the price via
`(\d+)$`, and take the rest as the name.  `replace(/\s*\d+$/, '').trim()`
removes the trailing digit run together with the whitespace just before it and
then trims, which is the same as trimming the line with only the digit run
removed. -/
def parseLine (line : List Char) : Option Item :=
  let trimmedLine := trim line
  let digits := trailingDigitRun trimmedLine
  if digits = [] then none
  else
    let price := natOfDigits digits
    let itemName := trim (stripTrailingDigitRun trimmedLine)
    if itemName ≠ [] ∧ 0 < price then some ⟨itemName, price⟩ else none

/-- Model of `parseExpenseMessage` (parser.js lines 130-163): trim the
message, split into lines, keep the non-blank ones, parse each line, and pair
the parsed items with the sum of their prices. -/
def parseExpenseMessage (message : List Char) : List Item × Nat :=
  let lines := (splitLines (trim message)).filter fun line => !(trim line).isEmpty
  let items := lines.filterMap parseLine
  (items, items.foldl (fun s i => s + i.price) 0)

/-! ## Historical block parser (`src/scripts/load-from-file.js`) -/

/-- Model of the date-header test `^(\d{1,2}\/\d{1,2})$`: one or two digits, a
slash, one or two digits, and nothing else. -/
def isDateHeader (l : List Char) : Bool :=
  let a := l.takeWhile Char.isDigit
  match l.dropWhile Char.isDigit with
  | '/' :: b =>
    decide (1 ≤ a.length) && decide (a.length ≤ 2)
      && b.all Char.isDigit && decide (1 ≤ b.length) && decide (b.length ≤ 2)
  | _ => false

/-- Model of the item-line match `^(.+?)\s*(\d+)$` applied to a trimmed line
(load-from-file.js lines 38-48).  The lazy group takes the shortest non-empty
prefix whose remainder is whitespace followed by digits up to the end of the
line, so: when something non-empty remains before the trailing
whitespace-plus-digit-run tail, that is the captured name and the digit run is
the price; when the line is whitespace followed by digits, the lazy group
captures the first (whitespace) character and the name trims to empty; when
the line is entirely digits, the lazy group captures the first digit and the
price is the value of the remaining digits.  The item is kept only when the
trimmed name is non-empty and the price is positive. -/
def histItemLine (l : List Char) : Option Item :=
  let d := trailingDigitRun l
  if d = [] then none
  else
    let p := trimRight (stripTrailingDigitRun l)
    if p = [] then
      if stripTrailingDigitRun l = [] then
        match l with
        | [] => none
        | c :: restDigits =>
          if restDigits = [] then none
          else if 0 < natOfDigits restDigits then some ⟨[c], natOfDigits restDigits⟩
          else none
      else none
    else
      let itemName := trim p
      if itemName ≠ [] ∧ 0 < natOfDigits d then some ⟨itemName, natOfDigits d⟩
      else none

/-- Closing out a date section (load-from-file.js lines 24-31 and 53-60): the
collected items are emitted as a `DateEntry` only when a date is open and at
least one item was parsed. -/
def flushSection (t : Nat) (curDate : Option (List Char)) (curItems : List Item)
    (entries : List DateEntry) : List DateEntry :=
  match curDate with
  | some d => if curItems ≠ [] then entries ++ [⟨d, curItems, t⟩] else entries
  | none => entries

/-- The line loop of `parseHistoricalData` (load-from-file.js lines 16-60):
blank lines are skipped, a date-header line closes the previous section and
opens a new one, and any other line is attempted as an item line (only when a
date is open). -/
def parseHistLines (t : Nat) :
    List (List Char) → Option (List Char) → List Item → List DateEntry →
      List DateEntry
  | [], curDate, curItems, entries => flushSection t curDate curItems entries
  | line :: rest, curDate, curItems, entries =>
    let trimmedLine := trim line
    if trimmedLine = [] then parseHistLines t rest curDate curItems entries
    else if isDateHeader trimmedLine then
      parseHistLines t rest (some trimmedLine) []
        (flushSection t curDate curItems entries)
    else
      match curDate with
      | none => parseHistLines t rest curDate curItems entries
      | some _ =>
        match histItemLine trimmedLine with
        | some it => parseHistLines t rest curDate (curItems ++ [it]) entries
        | none => parseHistLines t rest curDate curItems entries

/-- Model of `parseHistoricalData` (load-from-file.js lines 10-63). -/
def parseHistoricalData (t : Nat) (text : List Char) : List DateEntry :=
  parseHistLines t (splitLines (trim text)) none [] []

/-- The multiset-per-date content of an entry list, as the list of
`(date, name, price)` triples in order. -/
def histTriples (entries : List DateEntry) : List (List Char × List Char × Nat) :=
  entries.flatMap fun e => e.items.map fun i => (e.date, i.name, i.price)

/-! ## Month filter (`src/src/index.js` lines 227-239) -/

/-- Model of JavaScript `String.prototype.startsWith`. -/
def strStartsWith : List Char → List Char → Bool
  | _, [] => true
  | [], _ :: _ => false
  | c :: s, d :: p => c == d && strStartsWith s p

/-- Model of `filterExpensesByMonth`: with a `yyyymm` selector, keep entries
whose date starts with `yyyy-mm`; with no selector, keep entries whose date
starts with the current month (computed externally by moment and passed here
as `currentMonth`, already in `YYYY-MM` form). -/
def filterExpensesByMonth (currentMonth : List Char) (entries : List DateEntry)
    (yearMonth : Option (List Char)) : List DateEntry :=
  match yearMonth with
  | none => entries.filter fun entry => strStartsWith entry.date currentMonth
  | some ym =>
    let targetMonth := ym.take 4 ++ '-' :: (ym.drop 4).take 2
    entries.filter fun entry => strStartsWith entry.date targetMonth

/-! ## Categorization pipeline (`src/src/index.js` lines 242-435) -/

/-- A numbered item as sent to the classifier (`formatExpensesForAI`):
`{id, date, name, price}`. -/
structure CatItem where
  id : Nat
  date : List Char
  name : List Char
  price : Nat
deriving DecidableEq

/-- One element of the classifier's parsed reply: `{id, category}`. -/
structure CatAssign where
  id : Nat
  category : List Char
deriving DecidableEq

/-- One rendered category section: its label, its resolved items in insertion
order, and its price total (`categoryTotals` in the source). -/
structure CatBlock where
  category : List Char
  items : List CatItem
  total : Nat
deriving DecidableEq

/-- Sequential numbering of flattened `(date, name, price)` rows starting at
`k` (`formatExpensesForAI`, index.js lines 247-261, with `itemId` starting
at 1). -/
def numberFrom (k : Nat) : List (List Char × List Char × Nat) → List CatItem
  | [] => []
  | (d, n, p) :: rest => ⟨k, d, n, p⟩ :: numberFrom (k + 1) rest

/-- Resolution of a reply id against the numbered list:
`items.find(i => i.id === cat.id)` (index.js line 379). -/
def findItem (items : List CatItem) (n : Nat) : Option CatItem :=
  items.find? fun i => i.id == n

/-- Appending an item to a category's bucket in the insertion-ordered map
`categorizedItems` (index.js lines 385-389): a new key is appended at the
end, an existing key has the item pushed onto its list. -/
def addToGroup (key : List Char) (x : CatItem) :
    List (List Char × List CatItem) → List (List Char × List CatItem)
  | [] => [(key, [x])]
  | (k, xs) :: rest =>
    if k == key then (k, xs ++ [x]) :: rest
    else (k, xs) :: addToGroup key x rest

/-- The reconciliation loop (index.js lines 377-390): walk the classifier
reply in order, drop ids that resolve to no item, and push every resolved
item into its category's bucket — one push per reply occurrence, with no
deduplication. -/
def categorizedItems (items : List CatItem) (categorization : List CatAssign) :
    List (List Char × List CatItem) :=
  categorization.foldl
    (fun acc cat =>
      match findItem items cat.id with
      | none => acc
      | some item => addToGroup cat.category item acc)
    []

/-- Per-category totals (index.js lines 393-397). -/
def categoryTotals (groups : List (List Char × List CatItem)) : List CatBlock :=
  groups.map fun g => ⟨g.1, g.2, (g.2.map CatItem.price).sum⟩

/-- Stable insertion of a block into a list sorted by descending total. -/
def insertDesc (x : CatBlock) : List CatBlock → List CatBlock
  | [] => [x]
  | y :: ys => if y.total < x.total then x :: y :: ys else y :: insertDesc x ys

/-- Stable sort by descending total, modelling
`sort((a, b) => b[1].total - a[1].total)` (index.js lines 400-401). -/
def sortDesc : List CatBlock → List CatBlock
  | [] => []
  | x :: xs => insertDesc x (sortDesc xs)

/-- The sorted category sections of the organize report
(`sortedCategories` in the source): the data each category block of the
rendered output is printed from. -/
def sortedCategories (items : List CatItem) (categorization : List CatAssign) :
    List CatBlock :=
  sortDesc (categoryTotals (categorizedItems items categorization))

/-! ## Helper views of the rendered ledger text (for the round-trip claim) -/

/-- The rendered line of one item: `name price`. -/
def itemLineOf (i : Item) : List Char :=
  i.name ++ ' ' :: natToDigits i.price

/-- The rendered lines of one entry: the date header followed by its item
lines. -/
def linesOf (e : DateEntry) : List (List Char) :=
  e.date :: e.items.map itemLineOf

/-- Concatenation of lines, each terminated by a newline: the raw text built
by `formatAggregatedText` before its final trim. -/
def joinTerminated (L : List (List Char)) : List Char :=
  L.flatMap fun l => l ++ ['\n']

/-- Newline-separated concatenation without a trailing newline: the rendered
ledger text after the final trim. -/
def interNL : List (List Char) → List Char
  | [] => []
  | [l] => l
  | l :: L => l ++ '\n' :: interNL L

/-- What the historical parser reconstructs from a well-formed rendering: the
entries with at least one item, re-timestamped. -/
def parsedOf (t : Nat) (entries : List DateEntry) : List DateEntry :=
  (entries.filter fun e => !e.items.isEmpty).map fun e => ⟨e.date, e.items, t⟩

/-! ## Basic character-list lemmas -/

theorem ws_not_digit {c : Char} (h : c.isWhitespace = true) : c.isDigit = false := by
  simp only [Char.isWhitespace, Bool.or_eq_true, decide_eq_true_eq] at h
  rcases h with ((h | h) | h) | h <;> subst h <;> decide

theorem digit_not_ws {c : Char} (h : c.isDigit = true) : c.isWhitespace = false := by
  cases hw : c.isWhitespace with
  | false => rfl
  | true => rw [ws_not_digit hw] at h; exact absurd h (by simp)

theorem dropWhile_append_of_all {p : Char → Bool} {a : List Char}
    (b : List Char) (h : ∀ c ∈ a, p c = true) :
    List.dropWhile p (a ++ b) = List.dropWhile p b := by
  induction a with
  | nil => rfl
  | cons c cs ih =>
    rw [List.cons_append, List.dropWhile_cons, if_pos (h c (by simp))]
    exact ih fun x hx => h x (by simp [hx])

theorem takeWhile_append_of_all {p : Char → Bool} {a : List Char}
    (b : List Char) (h : ∀ c ∈ a, p c = true) :
    List.takeWhile p (a ++ b) = a ++ List.takeWhile p b := by
  induction a with
  | nil => rfl
  | cons c cs ih =>
    rw [List.cons_append, List.takeWhile_cons, if_pos (h c (by simp))]
    rw [ih fun x hx => h x (by simp [hx]), List.cons_append]

theorem length_dropWhile_le (p : Char → Bool) (l : List Char) :
    (List.dropWhile p l).length ≤ l.length := by
  induction l with
  | nil => simp
  | cons c cs ih =>
    rw [List.dropWhile_cons]
    by_cases hp : p c = true
    · rw [if_pos hp]; exact Nat.le_succ_of_le ih
    · rw [if_neg hp]

theorem dropWhile_eq_self_of_length {p : Char → Bool} {l : List Char}
    (h : (List.dropWhile p l).length = l.length) : List.dropWhile p l = l := by
  cases l with
  | nil => rfl
  | cons c cs =>
    rw [List.dropWhile_cons]
    by_cases hp : p c = true
    · exfalso
      rw [List.dropWhile_cons, if_pos hp] at h
      have := length_dropWhile_le p cs
      simp only [List.length_cons] at h
      omega
    · rw [if_neg hp]

theorem head_false_of_dropWhile_self {p : Char → Bool} {c : Char} {l : List Char}
    (h : List.dropWhile p (c :: l) = c :: l) : p c = false := by
  by_cases hp : p c = true
  · exfalso
    rw [List.dropWhile_cons, if_pos hp] at h
    have hle := length_dropWhile_le p l
    have := congrArg List.length h
    simp only [List.length_cons] at this
    omega
  · simpa using hp

theorem length_trimRight_le (l : List Char) : (trimRight l).length ≤ l.length := by
  unfold trimRight
  rw [List.length_reverse]
  calc (l.reverse.dropWhile Char.isWhitespace).length
      ≤ l.reverse.length := length_dropWhile_le _ _
    _ = l.length := List.length_reverse l

theorem trim_eq_self_left {l : List Char} (h : trim l = l) :
    l.dropWhile Char.isWhitespace = l := by
  apply dropWhile_eq_self_of_length
  have h1 : (trim l).length ≤ (l.dropWhile Char.isWhitespace).length :=
    length_trimRight_le _
  have h2 := length_dropWhile_le Char.isWhitespace l
  rw [h] at h1
  omega

theorem trim_eq_self_right {l : List Char} (h : trim l = l) :
    l.reverse.dropWhile Char.isWhitespace = l.reverse := by
  have hl := trim_eq_self_left h
  have h2 : trimRight l = l := by
    have := h
    unfold trim at this
    rwa [hl] at this
  unfold trimRight at h2
  calc l.reverse.dropWhile Char.isWhitespace
      = ((l.reverse.dropWhile Char.isWhitespace).reverse).reverse := by
        rw [List.reverse_reverse]
    _ = l.reverse := by rw [h2]

/-- A string with no whitespace characters is its own trim. -/
theorem trim_eq_self_of_no_ws {l : List Char}
    (h : ∀ c ∈ l, c.isWhitespace = false) : trim l = l := by
  unfold trim trimRight
  have h1 : l.dropWhile Char.isWhitespace = l := by
    cases l with
    | nil => rfl
    | cons c cs => rw [List.dropWhile_cons, if_neg (by simp [h c (by simp)])]
  rw [h1]
  have h2 : l.reverse.dropWhile Char.isWhitespace = l.reverse := by
    cases hrev : l.reverse with
    | nil => rfl
    | cons c cs =>
      have hc : c ∈ l := by
        rw [← List.mem_reverse, hrev]; simp
      rw [List.dropWhile_cons, if_neg (by simp [h c hc])]
  rw [h2, List.reverse_reverse]

theorem dropWhile_eq_self_of_headD {p : Char → Bool} {l : List Char}
    (h : l ≠ [] → p (l.headD ' ') = false) : List.dropWhile p l = l := by
  cases l with
  | nil => rfl
  | cons c cs =>
    rw [List.dropWhile_cons, if_neg (by simpa using h (List.cons_ne_nil c cs))]

/-- Trimming whitespace wrapped around a string that starts and ends with a
non-whitespace character recovers exactly that string. -/
theorem trim_of_wrapped {a x b : List Char} (hx0 : x ≠ [])
    (ha : ∀ c ∈ a, c.isWhitespace = true) (hb : ∀ c ∈ b, c.isWhitespace = true)
    (hx1 : x.dropWhile Char.isWhitespace = x)
    (hx2 : x.reverse.dropWhile Char.isWhitespace = x.reverse) :
    trim (a ++ (x ++ b)) = x := by
  unfold trim trimRight
  rw [dropWhile_append_of_all _ ha]
  have hxb : (x ++ b).dropWhile Char.isWhitespace = x ++ b := by
    cases x with
    | nil => exact absurd rfl hx0
    | cons c cs =>
      have hc : Char.isWhitespace c = false := head_false_of_dropWhile_self hx1
      rw [List.cons_append, List.dropWhile_cons, if_neg (by simp [hc])]
  rw [hxb, List.reverse_append,
    dropWhile_append_of_all _ (fun c hc => hb c (List.mem_reverse.mp hc)),
    hx2, List.reverse_reverse]

/-! ## Claims C1, C5, C7 -/

/-- C1: for every ledger state and every single `addExpenses` call with a
non-empty item list and any date, a subsequent `undoLastChange` restores the
ledger's entries to exactly the state they had immediately before the
`addExpenses` call (and the undo succeeds), regardless of how many items were
added. -/
theorem claim_C1 (s : StoreState) (items : List Item) (date : List Char)
    (t₁ t₂ : Nat) (hne : items ≠ []) :
    entriesView (undoLastChange (addExpenses s items date t₁).1 t₂).1
        = entriesView s
      ∧ ((undoLastChange (addExpenses s items date t₁).1 t₂).2).success = true := by
  exact ⟨rfl, rfl⟩

/-- Witness for C1 at a concrete store, item list and date. -/
theorem claim_C1_witness :
    entriesView (undoLastChange
        (addExpenses ⟨some ⟨[⟨str "2024-08-01", [⟨str "鮮奶", 255⟩], 7⟩], some 7⟩, none⟩
          [⟨str "地瓜", 130⟩, ⟨str "紅蘿蔔", 29⟩] (str "2024-08-02") 8).1 9).1
      = entriesView ⟨some ⟨[⟨str "2024-08-01", [⟨str "鮮奶", 255⟩], 7⟩], some 7⟩, none⟩ :=
  (claim_C1 ⟨some ⟨[⟨str "2024-08-01", [⟨str "鮮奶", 255⟩], 7⟩], some 7⟩, none⟩
    [⟨str "地瓜", 130⟩, ⟨str "紅蘿蔔", 29⟩] (str "2024-08-02") 8 9
    (List.cons_ne_nil _ _)).1

/-- C7: with a backup present, calling `undoLastChange` twice in a row with no
intervening `addExpenses` restores the same entry list after each call,
succeeds both times, and leaves the backup slot untouched. -/
theorem claim_C7 (s : StoreState) (b : BackupData) (t₁ t₂ : Nat)
    (hb : s.backup = some b) :
    entriesView (undoLastChange s t₁).1 = b.entries
      ∧ entriesView (undoLastChange (undoLastChange s t₁).1 t₂).1 = b.entries
      ∧ ((undoLastChange s t₁).2).success = true
      ∧ ((undoLastChange (undoLastChange s t₁).1 t₂).2).success = true
      ∧ ((undoLastChange (undoLastChange s t₁).1 t₂).1).backup = s.backup := by
  simp [undoLastChange, hb, entriesView, getAggregatedExpenses]

/-- Witness for C7 at a concrete store with a backup present. -/
theorem claim_C7_witness :
    entriesView (undoLastChange ⟨some ⟨[], some 3⟩, some ⟨[⟨str "8/4", [⟨str "a", 1⟩], 0⟩], none, 2⟩⟩ 5).1
        = [⟨str "8/4", [⟨str "a", 1⟩], 0⟩]
      ∧ entriesView (undoLastChange (undoLastChange ⟨some ⟨[], some 3⟩, some ⟨[⟨str "8/4", [⟨str "a", 1⟩], 0⟩], none, 2⟩⟩ 5).1 6).1
        = [⟨str "8/4", [⟨str "a", 1⟩], 0⟩]
      ∧ ((undoLastChange ⟨some ⟨[], some 3⟩, some ⟨[⟨str "8/4", [⟨str "a", 1⟩], 0⟩], none, 2⟩⟩ 5).2).success = true
      ∧ ((undoLastChange (undoLastChange ⟨some ⟨[], some 3⟩, some ⟨[⟨str "8/4", [⟨str "a", 1⟩], 0⟩], none, 2⟩⟩ 5).1 6).2).success = true
      ∧ ((undoLastChange (undoLastChange ⟨some ⟨[], some 3⟩, some ⟨[⟨str "8/4", [⟨str "a", 1⟩], 0⟩], none, 2⟩⟩ 5).1 6).1).backup
        = StoreState.backup ⟨some ⟨[], some 3⟩, some ⟨[⟨str "8/4", [⟨str "a", 1⟩], 0⟩], none, 2⟩⟩ :=
  claim_C7 ⟨some ⟨[], some 3⟩, some ⟨[⟨str "8/4", [⟨str "a", 1⟩], 0⟩], none, 2⟩⟩
    ⟨[⟨str "8/4", [⟨str "a", 1⟩], 0⟩], none, 2⟩ 5 6 rfl

/-- C5: `addExpenses` on a state whose first entry matching the date sits
between `pre` and `post` appends the new items at the end of exactly that
entry's item sequence (bumping only its timestamp) and leaves every other
entry untouched; when no entry matches the date, it appends a fresh entry at
the end of the entry list. -/
theorem claim_C5 (s : StoreState) (items : List Item) (date : List Char)
    (t : Nat) (pre post : List DateEntry) (e₀ : DateEntry) :
    (entriesView s = pre ++ e₀ :: post → e₀.date = date →
        (∀ e ∈ pre, e.date ≠ date) →
        entriesView (addExpenses s items date t).1
          = pre ++ ⟨e₀.date, e₀.items ++ items, t⟩ :: post)
      ∧ ((∀ e ∈ entriesView s, e.date ≠ date) →
        entriesView (addExpenses s items date t).1
          = entriesView s ++ [⟨date, items, t⟩]) := by
  have hview : entriesView (addExpenses s items date t).1
      = addToEntries date items t (entriesView s) := rfl
  constructor
  · intro hsplit hdate hpre
    have key : ∀ l : List DateEntry, (∀ e ∈ l, e.date ≠ date) →
        addToEntries date items t (l ++ e₀ :: post)
          = l ++ ⟨e₀.date, e₀.items ++ items, t⟩ :: post := by
      intro l
      induction l with
      | nil => intro _; simp [addToEntries, hdate]
      | cons p ps ih =>
        intro hl
        have hp : p.date ≠ date := hl p (by simp)
        simp only [List.cons_append, addToEntries, beq_iff_eq, hp, if_false]
        exact congrArg (p :: ·) (ih fun e he => hl e (by simp [he]))
    rw [hview, hsplit]
    exact key pre hpre
  · intro hall
    have key : ∀ l : List DateEntry, (∀ e ∈ l, e.date ≠ date) →
        addToEntries date items t l = l ++ [⟨date, items, t⟩] := by
      intro l
      induction l with
      | nil => intro _; simp [addToEntries]
      | cons p ps ih =>
        intro hl
        have hp : p.date ≠ date := hl p (by simp)
        simp only [addToEntries, beq_iff_eq, hp, if_false, List.cons_append]
        exact congrArg (p :: ·) (ih fun e he => hl e (by simp [he]))
    rw [hview]
    exact key _ hall

/-- Witness for C5: both branches applied at concrete states. -/
theorem claim_C5_witness :
    entriesView (addExpenses
        ⟨some ⟨[⟨str "8/3", [⟨str "x", 1⟩], 0⟩, ⟨str "8/4", [⟨str "a", 2⟩], 0⟩], none⟩, none⟩
        [⟨str "b", 5⟩] (str "8/4") 9).1
      = [⟨str "8/3", [⟨str "x", 1⟩], 0⟩] ++ ⟨str "8/4", [⟨str "a", 2⟩] ++ [⟨str "b", 5⟩], 9⟩ :: []
    ∧ entriesView (addExpenses
        ⟨some ⟨[⟨str "8/3", [⟨str "x", 1⟩], 0⟩], none⟩, none⟩
        [⟨str "b", 5⟩] (str "8/9") 9).1
      = entriesView ⟨some ⟨[⟨str "8/3", [⟨str "x", 1⟩], 0⟩], none⟩, none⟩ ++ [⟨str "8/9", [⟨str "b", 5⟩], 9⟩] := by
  constructor
  · exact (claim_C5 ⟨some ⟨[⟨str "8/3", [⟨str "x", 1⟩], 0⟩, ⟨str "8/4", [⟨str "a", 2⟩], 0⟩], none⟩, none⟩
      [⟨str "b", 5⟩] (str "8/4") 9 [⟨str "8/3", [⟨str "x", 1⟩], 0⟩] []
      ⟨str "8/4", [⟨str "a", 2⟩], 0⟩).1 rfl rfl (by decide)
  · exact (claim_C5 ⟨some ⟨[⟨str "8/3", [⟨str "x", 1⟩], 0⟩], none⟩, none⟩
      [⟨str "b", 5⟩] (str "8/9") 9 [] [] ⟨str "", [], 0⟩).2 (by decide)

/-! ## Claims C3, C4 -/

/-- C3: a line made of optional outer whitespace, a trimmed non-empty name,
separating whitespace, and a non-empty all-digit run of positive value parses
to exactly one item: the price is the maximal trailing digit run interpreted
as an integer, and the name is the remainder with only leading and trailing
whitespace stripped (internal spaces preserved). -/
theorem claim_C3 (wsl name wsm ds wsr : List Char)
    (hname : trim name = name) (hn : name ≠ [])
    (hwsl : ∀ c ∈ wsl, c.isWhitespace = true)
    (hwsm : ∀ c ∈ wsm, c.isWhitespace = true) (hm : wsm ≠ [])
    (hwsr : ∀ c ∈ wsr, c.isWhitespace = true)
    (hds : ∀ c ∈ ds, c.isDigit = true) (hd : ds ≠ [])
    (hpos : 0 < natOfDigits ds) :
    parseLine (wsl ++ name ++ wsm ++ ds ++ wsr) = some ⟨name, natOfDigits ds⟩ := by
  have hnx1 : name.dropWhile Char.isWhitespace = name := trim_eq_self_left hname
  have hnx2 : name.reverse.dropWhile Char.isWhitespace = name.reverse :=
    trim_eq_self_right hname
  have hdsrev : ∀ c ∈ ds.reverse, c.isDigit = true :=
    fun c hc => hds c (List.mem_reverse.mp hc)
  have hwrev : ∀ c ∈ wsm.reverse, c.isWhitespace = true :=
    fun c hc => hwsm c (List.mem_reverse.mp hc)
  obtain ⟨e, etl, her⟩ : ∃ e etl, ds.reverse = e :: etl := by
    cases hdr : ds.reverse with
    | nil => exact absurd (by simpa using congrArg List.reverse hdr) hd
    | cons e etl => exact ⟨e, etl, rfl⟩
  have hed : Char.isDigit e = true := hdsrev e (by rw [her]; simp)
  obtain ⟨w, wtl, hwr⟩ : ∃ w wtl, wsm.reverse = w :: wtl := by
    cases hwm : wsm.reverse with
    | nil => exact absurd (by simpa using congrArg List.reverse hwm) hm
    | cons w wtl => exact ⟨w, wtl, rfl⟩
  have hwdig : Char.isDigit w = false := ws_not_digit (hwrev w (by rw [hwr]; simp))
  have hx0 : name ++ wsm ++ ds ≠ [] := by
    cases name with
    | nil => exact absurd rfl hn
    | cons c cs => simp
  have hx1 : (name ++ wsm ++ ds).dropWhile Char.isWhitespace
      = name ++ wsm ++ ds := by
    cases name with
    | nil => exact absurd rfl hn
    | cons c cs =>
      have hc : Char.isWhitespace c = false := head_false_of_dropWhile_self hnx1
      simp only [List.cons_append, List.dropWhile_cons]
      rw [if_neg (by simp [hc])]
  have hrevfull : (name ++ wsm ++ ds).reverse
      = ds.reverse ++ (wsm.reverse ++ name.reverse) := by
    simp [List.reverse_append]
  have hx2 : (name ++ wsm ++ ds).reverse.dropWhile Char.isWhitespace
      = (name ++ wsm ++ ds).reverse := by
    rw [hrevfull, her, List.cons_append, List.dropWhile_cons,
      if_neg (by simp [digit_not_ws hed])]
  have hassoc : wsl ++ name ++ wsm ++ ds ++ wsr
      = wsl ++ ((name ++ wsm ++ ds) ++ wsr) := by
    simp [List.append_assoc]
  have htrim : trim (wsl ++ name ++ wsm ++ ds ++ wsr) = name ++ wsm ++ ds := by
    rw [hassoc]
    exact trim_of_wrapped hx0 hwsl hwsr hx1 hx2
  have hrun : trailingDigitRun (name ++ wsm ++ ds) = ds := by
    unfold trailingDigitRun
    rw [hrevfull, takeWhile_append_of_all _ hdsrev, hwr, List.cons_append,
      List.takeWhile_cons, if_neg (by simp [hwdig])]
    simp
  have hstrip : stripTrailingDigitRun (name ++ wsm ++ ds) = name ++ wsm := by
    unfold stripTrailingDigitRun
    rw [hrevfull, dropWhile_append_of_all _ hdsrev, hwr, List.cons_append,
      List.dropWhile_cons, if_neg (by simp [hwdig]), ← List.cons_append, ← hwr]
    simp
  have hitem : trim (name ++ wsm) = name := by
    have h0 := trim_of_wrapped (a := ([] : List Char)) hn
      (by intro c hc; simp at hc) hwsm hnx1 hnx2
    simpa using h0
  simp only [parseLine, htrim, hrun, hstrip, hitem]
  rw [if_neg hd, if_pos ⟨hn, hpos⟩]

/-- Witness for C3 at a concrete line with outer whitespace and an internal
space in the name. -/
theorem claim_C3_witness :
    parseLine (str " " ++ str "鮮 奶" ++ str "  " ++ str "255" ++ str " ")
      = some ⟨str "鮮 奶", natOfDigits (str "255")⟩ :=
  claim_C3 (str " ") (str "鮮 奶") (str "  ") (str "255") (str " ")
    (by decide) (by decide) (by decide) (by decide) (by decide) (by decide)
    (by decide) (by decide) (by decide)

/-- C4: a line with no trailing digit run, or whose digit value is not
positive, or whose remaining name is empty after stripping, yields no item;
a message all of whose lines yield no item parses to an empty item sequence
with total zero; and so does the empty message. -/
theorem claim_C4 :
    (∀ line : List Char,
        (trailingDigitRun (trim line) = []
            ∨ natOfDigits (trailingDigitRun (trim line)) = 0
            ∨ trim (stripTrailingDigitRun (trim line)) = []) →
        parseLine line = none)
      ∧ (∀ message : List Char,
        (∀ l ∈ splitLines (trim message), parseLine l = none) →
        parseExpenseMessage message = ([], 0))
      ∧ parseExpenseMessage [] = ([], 0) := by
  refine ⟨?_, ?_, ?_⟩
  · intro line h
    simp only [parseLine]
    split_ifs with h1 h2
    · rfl
    · exfalso
      rcases h with h | h | h
      · exact h1 h
      · have hlt := h2.2
        rw [h] at hlt
        exact absurd hlt (by omega)
      · exact h2.1 h
    · rfl
  · intro message hall
    simp only [parseExpenseMessage]
    have hnil : ((splitLines (trim message)).filter
        fun line => !(trim line).isEmpty).filterMap parseLine = [] := by
      rw [List.filterMap_eq_nil_iff]
      intro a ha
      exact hall a (List.mem_filter.mp ha).1
    rw [hnil]
    rfl
  · rfl

/-- Witness for C4: a chatter line with no digits is silently dropped, both
as a line and as a whole message. -/
theorem claim_C4_witness :
    parseLine (str "哈囉大家好") = none
      ∧ parseExpenseMessage (str "哈囉大家好") = ([], 0) :=
  ⟨claim_C4.1 (str "哈囉大家好") (Or.inl (by decide)),
   claim_C4.2.1 (str "哈囉大家好") (by decide)⟩

/-! ## Claim C9 -/

/-- C9: over an entry list each of whose dates either starts with 2024-08
(the August dates) or is 2024-09-01, filtering with selector 202408 keeps
exactly the non-September entries, and filtering with no selector when the
current month is 2024-08 returns the same list. -/
theorem claim_C9 (cm : List Char) (entries : List DateEntry)
    (h : ∀ e ∈ entries, strStartsWith e.date (str "2024-08") = true
        ∨ e.date = str "2024-09-01") :
    filterExpensesByMonth cm entries (some (str "202408"))
        = entries.filter (fun e => e.date != str "2024-09-01")
      ∧ filterExpensesByMonth (str "2024-08") entries none
        = filterExpensesByMonth cm entries (some (str "202408")) := by
  have ht : ((str "202408").take 4 ++ '-' :: ((str "202408").drop 4).take 2)
      = str "2024-08" := by decide
  have hcong : ∀ e ∈ entries,
      strStartsWith e.date (str "2024-08") = (e.date != str "2024-09-01") := by
    intro e he
    rcases h e he with hs | hs
    · rw [hs]
      have hne : e.date ≠ str "2024-09-01" := by
        intro hdd
        rw [hdd] at hs
        exact absurd hs (by decide)
      simp [hne]
    · rw [hs]
      decide
  constructor
  · simp only [filterExpensesByMonth, ht]
    exact List.filter_congr hcong
  · simp only [filterExpensesByMonth, ht]

/-- Witness for C9 on a three-entry list with two August dates and the
September first date. -/
theorem claim_C9_witness :
    filterExpensesByMonth (str "")
        [⟨str "2024-08-01", [], 0⟩, ⟨str "2024-09-01", [], 0⟩, ⟨str "2024-08-31", [], 0⟩]
        (some (str "202408"))
      = [⟨str "2024-08-01", [], 0⟩, ⟨str "2024-09-01", [], 0⟩, ⟨str "2024-08-31", [], 0⟩].filter
          (fun e => e.date != str "2024-09-01")
    ∧ filterExpensesByMonth (str "2024-08")
        [⟨str "2024-08-01", [], 0⟩, ⟨str "2024-09-01", [], 0⟩, ⟨str "2024-08-31", [], 0⟩] none
      = filterExpensesByMonth (str "")
          [⟨str "2024-08-01", [], 0⟩, ⟨str "2024-09-01", [], 0⟩, ⟨str "2024-08-31", [], 0⟩]
          (some (str "202408")) :=
  claim_C9 (str "")
    [⟨str "2024-08-01", [], 0⟩, ⟨str "2024-09-01", [], 0⟩, ⟨str "2024-08-31", [], 0⟩]
    (by decide)

/-! ## Claim C8 -/

/-- C8 fails as stated: the non-blank, non-header line 12 is dropped by the
expense line parser (its name is empty after stripping the trailing digit
run), but the historical parser's lazy pattern takes the first digit as the
name and parses the line as the item (1, 2). -/
theorem claim_C8_cex :
    trim (str "12") = str "12"
      ∧ str "12" ≠ []
      ∧ isDateHeader (str "12") = false
      ∧ histItemLine (str "12") = some ⟨str "1", 2⟩
      ∧ parseLine (str "12") = none := by
  decide

theorem dropWhile_nil_of_all {p : Char → Bool} {w : List Char}
    (h : ∀ c ∈ w, p c = true) : w.dropWhile p = [] := by
  have h0 := dropWhile_append_of_all (p := p) (a := w) [] h
  simpa using h0

theorem all_of_dropWhile_nil {p : Char → Bool} {w : List Char}
    (h : w.dropWhile p = []) : ∀ c ∈ w, p c = true := by
  induction w with
  | nil => intro c hc; exact absurd hc (List.not_mem_nil c)
  | cons a xs ih =>
    intro c hc
    rw [List.dropWhile_cons] at h
    by_cases ha : p a = true
    · rw [if_pos ha] at h
      rcases List.mem_cons.mp hc with rfl | hc2
      · exact ha
      · exact ih h c hc2
    · rw [if_neg ha] at h
      exact absurd h (List.cons_ne_nil a xs)

theorem takeWhile_mem_pred {p : Char → Bool} {w : List Char} :
    ∀ c ∈ w.takeWhile p, p c = true := by
  induction w with
  | nil => intro c hc; exact absurd hc (List.not_mem_nil c)
  | cons a xs ih =>
    intro c hc
    rw [List.takeWhile_cons] at hc
    by_cases ha : p a = true
    · rw [if_pos ha] at hc
      rcases List.mem_cons.mp hc with rfl | hc2
      · exact ha
      · exact ih c hc2
    · rw [if_neg ha] at hc
      exact absurd hc (List.not_mem_nil c)

theorem trimRight_append_ws {z w : List Char}
    (hw : ∀ c ∈ w, c.isWhitespace = true) : trimRight (z ++ w) = trimRight z := by
  unfold trimRight
  rw [List.reverse_append,
    dropWhile_append_of_all _ (fun c hc => hw c (List.mem_reverse.mp hc))]

theorem trim_append_ws {x w : List Char}
    (hw : ∀ c ∈ w, c.isWhitespace = true) : trim (x ++ w) = trim x := by
  induction x with
  | nil =>
    unfold trim
    rw [List.nil_append, dropWhile_nil_of_all hw]
    rfl
  | cons c xs ih =>
    by_cases hc : Char.isWhitespace c = true
    · have h1 : trim ((c :: xs) ++ w) = trim (xs ++ w) := by
        unfold trim
        rw [List.cons_append, List.dropWhile_cons, if_pos hc]
      have h2 : trim (c :: xs) = trim xs := by
        unfold trim
        rw [List.dropWhile_cons, if_pos hc]
      rw [h1, h2, ih]
    · have h1 : trim ((c :: xs) ++ w) = trimRight ((c :: xs) ++ w) := by
        unfold trim
        rw [List.cons_append, List.dropWhile_cons, if_neg hc]
      have h2 : trim (c :: xs) = trimRight (c :: xs) := by
        unfold trim
        rw [List.dropWhile_cons, if_neg hc]
      rw [h1, h2, trimRight_append_ws hw]

/-- Decomposition of a string into its right trim and its trailing
whitespace. -/
theorem trimRight_decomp (s : List Char) :
    s = trimRight s ++ (s.reverse.takeWhile Char.isWhitespace).reverse := by
  unfold trimRight
  rw [← List.reverse_append, List.takeWhile_append_dropWhile, List.reverse_reverse]

/-- Trimming a string equals trimming its right trim. -/
theorem trim_trimRight (s : List Char) : trim s = trim (trimRight s) := by
  conv_lhs => rw [trimRight_decomp s]
  exact trim_append_ws fun c hc =>
    takeWhile_mem_pred c (List.mem_reverse.mp hc)

/-- C8 amended: on every trimmed line that is not composed entirely of
digits, the historical parser's item rule agrees exactly with the expense
line parser; it is only on a line consisting solely of digits that the two
diverge (the expense parser drops it, while the historical parser takes the
first digit as the name and the remaining digits as the price when their
value is positive). -/
theorem claim_C8_amended (l : List Char) (htr : trim l = l)
    (hnd : l.all Char.isDigit = false) :
    histItemLine l = parseLine l := by
  simp only [histItemLine, parseLine, htr]
  by_cases hd : trailingDigitRun l = []
  · rw [if_pos hd, if_pos hd]
  · rw [if_neg hd, if_neg hd]
    by_cases hp : trimRight (stripTrailingDigitRun l) = []
    · rw [if_pos hp]
      have hs : stripTrailingDigitRun l ≠ [] := by
        intro hs0
        have hrev : l.reverse.dropWhile Char.isDigit = [] := by
          have := congrArg List.reverse hs0
          unfold stripTrailingDigitRun at this
          simpa using this
        have hall : l.all Char.isDigit = true := by
          rw [List.all_eq_true]
          intro c hc
          exact all_of_dropWhile_nil hrev c (List.mem_reverse.mpr hc)
        rw [hall] at hnd
        exact absurd hnd (by simp)
      rw [if_neg hs]
      have hws : ∀ c ∈ stripTrailingDigitRun l, c.isWhitespace = true := by
        intro c hc
        have hrev : (stripTrailingDigitRun l).reverse.dropWhile Char.isWhitespace
            = [] := by
          have := congrArg List.reverse hp
          unfold trimRight at this
          simpa using this
        exact all_of_dropWhile_nil hrev c (List.mem_reverse.mpr hc)
      have htrims : trim (stripTrailingDigitRun l) = [] := by
        have h0 : trim (([] : List Char) ++ stripTrailingDigitRun l) = trim [] :=
          trim_append_ws hws
        simpa using h0
      rw [htrims]
      rw [if_neg (by intro hcon; exact hcon.1 rfl)]
    · rw [if_neg hp]
      rw [trim_trimRight (stripTrailingDigitRun l)]

/-- Witness for the amended C8 on a trimmed, not-all-digit line. -/
theorem claim_C8_amended_witness :
    histItemLine (str "蛋餅2份 130") = parseLine (str "蛋餅2份 130") :=
  claim_C8_amended (str "蛋餅2份 130") (by decide) (by decide)

/-! ## Claims C2, C10: categorization pipeline -/

theorem insertDesc_perm (x : CatBlock) (l : List CatBlock) :
    (insertDesc x l).Perm (x :: l) := by
  induction l with
  | nil => exact List.Perm.refl _
  | cons y ys ih =>
    unfold insertDesc
    by_cases h : y.total < x.total
    · rw [if_pos h]
    · rw [if_neg h]
      exact (ih.cons y).trans (List.Perm.swap x y ys)

theorem sortDesc_perm (l : List CatBlock) : (sortDesc l).Perm l := by
  induction l with
  | nil => exact List.Perm.refl _
  | cons x xs ih =>
    exact (insertDesc_perm x (sortDesc xs)).trans (ih.cons x)

theorem addToGroup_flatten_perm (key : List Char) (x : CatItem)
    (G : List (List Char × List CatItem)) :
    ((addToGroup key x G).map Prod.snd).flatten.Perm
      (x :: (G.map Prod.snd).flatten) := by
  induction G with
  | nil => simp [addToGroup]
  | cons g gs ih =>
    obtain ⟨k, xs⟩ := g
    unfold addToGroup
    by_cases h : (k == key) = true
    · rw [if_pos h]
      simp only [List.map_cons, List.flatten_cons, List.append_assoc,
        List.singleton_append]
      exact List.perm_middle
    · rw [if_neg h]
      simp only [List.map_cons, List.flatten_cons]
      exact (ih.append_left xs).trans List.perm_middle

theorem categorizedItems_go_perm (items : List CatItem) (cats : List CatAssign)
    (acc : List (List Char × List CatItem)) :
    ((cats.foldl
        (fun acc cat =>
          match findItem items cat.id with
          | none => acc
          | some item => addToGroup cat.category item acc)
        acc).map Prod.snd).flatten.Perm
      ((acc.map Prod.snd).flatten ++ cats.filterMap fun c => findItem items c.id) := by
  induction cats generalizing acc with
  | nil => simp
  | cons c cs ih =>
    rw [List.foldl_cons, List.filterMap_cons]
    cases hfind : findItem items c.id with
    | none =>
      simp only [hfind]
      exact ih acc
    | some x =>
      simp only [hfind]
      refine (ih _).trans ?_
      refine ((addToGroup_flatten_perm c.category x acc).append_right _).trans ?_
      exact List.perm_middle.symm

theorem categorizedItems_flatten_perm (items : List CatItem)
    (cats : List CatAssign) :
    ((categorizedItems items cats).map Prod.snd).flatten.Perm
      (cats.filterMap fun c => findItem items c.id) := by
  have h := categorizedItems_go_perm items cats []
  simpa [categorizedItems] using h

theorem findItem_self {items : List CatItem} (hnd : (items.map CatItem.id).Nodup)
    {it : CatItem} (hmem : it ∈ items) : findItem items it.id = some it := by
  induction items with
  | nil => exact absurd hmem (List.not_mem_nil it)
  | cons a rest ih =>
    rw [List.map_cons, List.nodup_cons] at hnd
    rcases List.mem_cons.mp hmem with rfl | hm
    · simp [findItem, List.find?_cons]
    · have hne : (a.id == it.id) = false := by
        have h1 : it.id ∈ rest.map CatItem.id := List.mem_map.mpr ⟨it, hm, rfl⟩
        have h2 : a.id ≠ it.id := by
          intro he
          exact hnd.1 (by rw [he]; exact h1)
        simpa using h2
      simp only [findItem, List.find?_cons, hne]
      exact ih hnd.2 hm

theorem filterMap_findItem_of_mem {items : List CatItem}
    (hnd : (items.map CatItem.id).Nodup) :
    ∀ l : List CatItem, (∀ it ∈ l, it ∈ items) →
      (l.map CatItem.id).filterMap (findItem items) = l := by
  intro l
  induction l with
  | nil => intro _; rfl
  | cons a rest ih =>
    intro hsub
    have h1 : findItem items a.id = some a :=
      findItem_self hnd (hsub a (List.mem_cons_self a rest))
    have h2 := ih fun it hit => hsub it (List.mem_cons_of_mem a hit)
    simp [h1, h2]

theorem resolved_perm_items {items : List CatItem} {cats : List CatAssign}
    (hnd : (items.map CatItem.id).Nodup)
    (hperm : (cats.map CatAssign.id).Perm (items.map CatItem.id)) :
    (cats.filterMap fun c => findItem items c.id).Perm items := by
  have h0 : cats.filterMap (fun c => findItem items c.id)
      = (cats.map CatAssign.id).filterMap (findItem items) := by
    rw [List.filterMap_map]
    rfl
  rw [h0]
  have h1 := List.Perm.filterMap (findItem items) hperm
  rwa [filterMap_findItem_of_mem hnd items (fun it hit => hit)] at h1

theorem categoryTotals_map_items (G : List (List Char × List CatItem)) :
    (categoryTotals G).map CatBlock.items = G.map Prod.snd := by
  unfold categoryTotals
  rw [List.map_map]
  rfl

theorem blocks_flatten_perm (items : List CatItem) (cats : List CatAssign) :
    ((sortedCategories items cats).map CatBlock.items).flatten.Perm
      (cats.filterMap fun c => findItem items c.id) := by
  unfold sortedCategories
  refine (List.Perm.flatten ((sortDesc_perm _).map CatBlock.items)).trans ?_
  rw [categoryTotals_map_items]
  exact categorizedItems_flatten_perm items cats

theorem numberFrom_map_id (k : Nat) (raw : List (List Char × List Char × Nat)) :
    (numberFrom k raw).map CatItem.id = List.range' k raw.length := by
  induction raw generalizing k with
  | nil => rfl
  | cons r rest ih =>
    obtain ⟨d, n, p⟩ := r
    simp [numberFrom, List.range'_succ, ih]

theorem numberFrom_id_nodup (k : Nat) (raw : List (List Char × List Char × Nat)) :
    ((numberFrom k raw).map CatItem.id).Nodup := by
  rw [numberFrom_map_id]
  exact List.nodup_range' k raw.length

theorem countP_mem_of_count_flatten_one {x : CatItem} :
    ∀ L : List (List CatItem), L.flatten.count x = 1 →
      L.countP (fun xs => decide (x ∈ xs)) = 1 := by
  intro L
  induction L with
  | nil => intro h; simp at h
  | cons xs L ih =>
    intro h
    rw [List.flatten_cons, List.count_append] at h
    rw [List.countP_cons]
    by_cases hx : x ∈ xs
    · have h1 : 0 < xs.count x := List.count_pos_iff.mpr hx
      have h2 : L.flatten.count x = 0 := by omega
      have h3 : L.countP (fun xs => decide (x ∈ xs)) = 0 := by
        rw [List.countP_eq_zero]
        intro ys hys hmem
        have hxmem : x ∈ L.flatten :=
          List.mem_flatten.mpr ⟨ys, hys, by simpa using hmem⟩
        have := List.count_pos_iff.mpr hxmem
        omega
      rw [h3, if_pos (by simpa using hx)]
    · have h1 : xs.count x = 0 := List.count_eq_zero.mpr hx
      rw [if_neg (by simpa using hx), Nat.add_zero]
      exact ih (by omega)

/-- C2: for every numbered input item list (ids assigned sequentially from 1)
and every classifier reply that covers exactly the submitted ids (no missing
ids, no duplicates), the category totals of the organize report sum exactly
to the overall total (the sum of all input prices), and every input item
appears in exactly one category block. -/
theorem claim_C2 (raw : List (List Char × List Char × Nat)) (cats : List CatAssign)
    (hperm : (cats.map CatAssign.id).Perm ((numberFrom 1 raw).map CatItem.id)) :
    ((sortedCategories (numberFrom 1 raw) cats).map CatBlock.total).sum
        = ((numberFrom 1 raw).map CatItem.price).sum
      ∧ ((sortedCategories (numberFrom 1 raw) cats).map CatBlock.items).flatten.Perm
          (numberFrom 1 raw)
      ∧ ∀ it ∈ numberFrom 1 raw,
          (sortedCategories (numberFrom 1 raw) cats).countP
              (fun b => decide (it ∈ b.items)) = 1 := by
  have hnd : ((numberFrom 1 raw).map CatItem.id).Nodup := numberFrom_id_nodup 1 raw
  have hflat : ((sortedCategories (numberFrom 1 raw) cats).map
      CatBlock.items).flatten.Perm (numberFrom 1 raw) :=
    (blocks_flatten_perm _ cats).trans (resolved_perm_items hnd hperm)
  refine ⟨?_, hflat, ?_⟩
  · have e1 : ((sortedCategories (numberFrom 1 raw) cats).map CatBlock.total).sum
        = ((categoryTotals (categorizedItems (numberFrom 1 raw) cats)).map
            CatBlock.total).sum :=
      List.Perm.sum_eq ((sortDesc_perm _).map CatBlock.total)
    have e2 : ((categoryTotals (categorizedItems (numberFrom 1 raw) cats)).map
          CatBlock.total)
        = (categorizedItems (numberFrom 1 raw) cats).map
            (fun g => (g.2.map CatItem.price).sum) := by
      unfold categoryTotals
      rw [List.map_map]
      rfl
    have e3 : (((categorizedItems (numberFrom 1 raw) cats).map
          Prod.snd).flatten.map CatItem.price).sum
        = ((categorizedItems (numberFrom 1 raw) cats).map
            (fun g => (g.2.map CatItem.price).sum)).sum := by
      rw [List.map_flatten, List.sum_flatten, List.map_map, List.map_map]
      rfl
    have e4 : (((categorizedItems (numberFrom 1 raw) cats).map
          Prod.snd).flatten.map CatItem.price).sum
        = ((numberFrom 1 raw).map CatItem.price).sum :=
      List.Perm.sum_eq (List.Perm.map CatItem.price
        ((categorizedItems_flatten_perm _ cats).trans
          (resolved_perm_items hnd hperm)))
    rw [e1, e2, ← e3, e4]
  · intro it hit
    have h1 : ((sortedCategories (numberFrom 1 raw) cats).map
        CatBlock.items).flatten.count it = 1 := by
      rw [List.Perm.count_eq hflat it]
      exact List.count_eq_one_of_mem (List.Nodup.of_map _ hnd) hit
    have h2 := countP_mem_of_count_flatten_one _ h1
    rw [List.countP_map] at h2
    exact h2

/-- Witness for C2: two items, classifier covers both ids exactly once. -/
theorem claim_C2_witness :
    ((sortedCategories (numberFrom 1 [(str "8/1", str "鳳梨", 79), (str "8/2", str "里肌肉", 75)])
        [⟨2, str "家裡煮"⟩, ⟨1, str "水果"⟩]).map CatBlock.total).sum
        = ((numberFrom 1 [(str "8/1", str "鳳梨", 79), (str "8/2", str "里肌肉", 75)]).map
            CatItem.price).sum
      ∧ ((sortedCategories (numberFrom 1 [(str "8/1", str "鳳梨", 79), (str "8/2", str "里肌肉", 75)])
          [⟨2, str "家裡煮"⟩, ⟨1, str "水果"⟩]).map CatBlock.items).flatten.Perm
          (numberFrom 1 [(str "8/1", str "鳳梨", 79), (str "8/2", str "里肌肉", 75)])
      ∧ ∀ it ∈ numberFrom 1 [(str "8/1", str "鳳梨", 79), (str "8/2", str "里肌肉", 75)],
          (sortedCategories (numberFrom 1 [(str "8/1", str "鳳梨", 79), (str "8/2", str "里肌肉", 75)])
              [⟨2, str "家裡煮"⟩, ⟨1, str "水果"⟩]).countP
              (fun b => decide (it ∈ b.items)) = 1 :=
  claim_C2 [(str "8/1", str "鳳梨", 79), (str "8/2", str "里肌肉", 75)]
    [⟨2, str "家裡煮"⟩, ⟨1, str "水果"⟩] (by decide)

theorem count_resolved {items : List CatItem} (hnd : (items.map CatItem.id).Nodup)
    {it : CatItem} (hmem : it ∈ items) :
    ∀ cats : List CatAssign,
      (cats.filterMap fun c => findItem items c.id).count it
        = (cats.map CatAssign.id).count it.id := by
  intro cats
  induction cats with
  | nil => rfl
  | cons c cs ih =>
    rw [List.map_cons]
    cases hfind : findItem items c.id with
    | none =>
      have hne : (c.id == it.id) = false := by
        have h2 : c.id ≠ it.id := by
          intro he
          rw [he, findItem_self hnd hmem] at hfind
          exact Option.noConfusion hfind
        simpa using h2
      rw [List.filterMap_cons]
      simp only [hfind, List.count_cons, hne]
      simpa using ih
    | some x =>
      rw [List.filterMap_cons]
      simp only [hfind, List.count_cons]
      by_cases he : c.id = it.id
      · have hx : x = it := by
          rw [he, findItem_self hnd hmem] at hfind
          exact ((Option.some.injEq it x).mp hfind).symm
        rw [hx]
        simp [he, ih]
      · have hxid : x.id = c.id := by
          have h3 := List.find?_some hfind
          simpa using h3
        have hxne : (x == it) = false := by
          have h4 : x ≠ it := by
            intro hxe
            exact he (by rw [← hxid, hxe])
          simpa using h4
        have hne : (c.id == it.id) = false := by simpa using he
        simp [hxne, hne, ih]

/-- C10: the reconciliation step does not deduplicate reply ids — for every
numbered input list, each item occurs in the report's category blocks once
per occurrence of its id in the classifier reply — and on a concrete reply
that repeats a valid id the category totals sum to more than the overall
total. -/
theorem claim_C10 :
    (∀ (raw : List (List Char × List Char × Nat)) (cats : List CatAssign)
        (it : CatItem), it ∈ numberFrom 1 raw →
        ((sortedCategories (numberFrom 1 raw) cats).map
            CatBlock.items).flatten.count it
          = (cats.map CatAssign.id).count it.id)
      ∧ ((sortedCategories (numberFrom 1 [(str "8/1", str "牛奶", 10)])
            [⟨1, str "生活用品"⟩, ⟨1, str "零嘴"⟩]).map CatBlock.total).sum
          > ((numberFrom 1 [(str "8/1", str "牛奶", 10)]).map CatItem.price).sum := by
  constructor
  · intro raw cats it hit
    have hnd := numberFrom_id_nodup 1 raw
    rw [List.Perm.count_eq (blocks_flatten_perm _ cats) it]
    exact count_resolved hnd hit cats
  · decide

/-- Witness for C10: with the id 1 repeated in the reply, the single item is
counted twice across the category blocks. -/
theorem claim_C10_witness :
    ((sortedCategories (numberFrom 1 [(str "8/1", str "牛奶", 10)])
        [⟨1, str "生活用品"⟩, ⟨1, str "零嘴"⟩]).map CatBlock.items).flatten.count
        (⟨1, str "8/1", str "牛奶", 10⟩ : CatItem)
      = (([⟨1, str "生活用品"⟩, ⟨1, str "零嘴"⟩] : List CatAssign).map
          CatAssign.id).count 1 :=
  claim_C10.1 [(str "8/1", str "牛奶", 10)] [⟨1, str "生活用品"⟩, ⟨1, str "零嘴"⟩]
    ⟨1, str "8/1", str "牛奶", 10⟩ (by decide)

/-! ## Claim C6: decimal rendering, header and line lemmas -/

theorem natToDigitsCore_zero (fuel : Nat) : natToDigitsCore fuel 0 = [] := by
  cases fuel <;> simp [natToDigitsCore]

theorem digitChar_isDigit {d : Nat} (h : d < 10) :
    (Nat.digitChar d).isDigit = true := by
  interval_cases d <;> decide

theorem digitChar_val {d : Nat} (h : d < 10) :
    (Nat.digitChar d).toNat - 48 = d := by
  interval_cases d <;> decide

theorem digit_ne_newline {c : Char} (h : c.isDigit = true) : c ≠ '\n' := by
  intro he
  subst he
  exact absurd h (by decide)

theorem natOfDigits_append (a : List Char) (c : Char) :
    natOfDigits (a ++ [c]) = 10 * natOfDigits a + (c.toNat - 48) := by
  unfold natOfDigits
  rw [List.foldl_append]
  rfl

theorem natToDigitsCore_spec :
    ∀ fuel n, n ≤ fuel → n ≠ 0 →
      natOfDigits (natToDigitsCore fuel n) = n
        ∧ (∀ c ∈ natToDigitsCore fuel n, c.isDigit = true)
        ∧ natToDigitsCore fuel n ≠ [] := by
  intro fuel
  induction fuel with
  | zero => intro n h1 h2; omega
  | succ fuel ih =>
    intro n h1 h2
    have hmod : n % 10 < 10 := Nat.mod_lt n (by omega)
    have hstep : natToDigitsCore (fuel + 1) n
        = natToDigitsCore fuel (n / 10) ++ [Nat.digitChar (n % 10)] := by
      simp [natToDigitsCore, h2]
    rw [hstep]
    by_cases hq : n / 10 = 0
    · rw [hq, natToDigitsCore_zero, List.nil_append]
      refine ⟨?_, ?_, by simp⟩
      · have h3 : natOfDigits [Nat.digitChar (n % 10)]
            = 10 * natOfDigits [] + ((Nat.digitChar (n % 10)).toNat - 48) := by
          have h4 := natOfDigits_append [] (Nat.digitChar (n % 10))
          simpa using h4
        rw [h3, digitChar_val hmod]
        simp only [natOfDigits, List.foldl_nil]
        omega
      · intro c hc
        have hce : c = Nat.digitChar (n % 10) := by simpa using hc
        rw [hce]
        exact digitChar_isDigit hmod
    · have hle : n / 10 ≤ fuel := by
        have := Nat.div_lt_self (show 0 < n by omega) (show 1 < 10 by omega)
        omega
      obtain ⟨ha, hb, _⟩ := ih (n / 10) hle hq
      refine ⟨?_, ?_, by simp⟩
      · rw [natOfDigits_append, ha, digitChar_val hmod]
        omega
      · intro c hcmem
        rcases List.mem_append.mp hcmem with hm | hm
        · exact hb c hm
        · have hce : c = Nat.digitChar (n % 10) := by simpa using hm
          rw [hce]
          exact digitChar_isDigit hmod

theorem natToDigits_spec {n : Nat} (h : 0 < n) :
    natOfDigits (natToDigits n) = n
      ∧ (∀ c ∈ natToDigits n, c.isDigit = true) ∧ natToDigits n ≠ [] := by
  unfold natToDigits
  rw [if_neg (by omega)]
  exact natToDigitsCore_spec n n le_rfl (by omega)

theorem header_decomp {l : List Char} (h : isDateHeader l = true) :
    ∀ c ∈ l, c.isDigit = true ∨ c = '/' := by
  unfold isDateHeader at h
  cases hdrop : l.dropWhile Char.isDigit with
  | nil => rw [hdrop] at h; exact absurd h (by simp)
  | cons d b =>
    rw [hdrop] at h
    by_cases hd : d = '/'
    · subst hd
      have hb : ∀ c ∈ b, c.isDigit = true := by
        simp only [Bool.and_eq_true, decide_eq_true_eq, List.all_eq_true] at h
        exact h.1.1.2
      have hl : l = l.takeWhile Char.isDigit ++ '/' :: b := by
        rw [← hdrop, List.takeWhile_append_dropWhile]
      intro c hc
      rw [hl] at hc
      rcases List.mem_append.mp hc with hm | hm
      · exact Or.inl (takeWhile_mem_pred c hm)
      · rcases List.mem_cons.mp hm with rfl | hm2
        · exact Or.inr rfl
        · exact Or.inl (hb c hm2)
    · exfalso
      cases hdc : d.toNat == 47 with
      | _ =>
        revert h
        have : (match d :: b with
            | '/' :: b =>
              decide (1 ≤ (l.takeWhile Char.isDigit).length)
                && decide ((l.takeWhile Char.isDigit).length ≤ 2)
                && b.all Char.isDigit && decide (1 ≤ b.length)
                && decide (b.length ≤ 2)
            | _ => false) = false := by
          have hne : d ≠ '/' := hd
          split
          · next b2 heq =>
            exact absurd (List.cons.injEq d b '/' b2 ▸ heq) (by
              intro hcon
              exact hne (by injection heq))
          · rfl
        rw [this]
        simp

theorem header_ne_nil {l : List Char} (h : isDateHeader l = true) : l ≠ [] := by
  intro he
  rw [he] at h
  exact absurd h (by decide)

theorem header_no_ws {l : List Char} (h : isDateHeader l = true) :
    ∀ c ∈ l, c.isWhitespace = false := by
  intro c hc
  rcases header_decomp h c hc with hd | hd
  · exact digit_not_ws hd
  · rw [hd]; decide

theorem header_no_newline {l : List Char} (h : isDateHeader l = true) :
    '\n' ∉ l := by
  intro hmem
  rcases header_decomp h '\n' hmem with hd | hd
  · exact absurd hd (by decide)
  · exact absurd hd (by decide)

theorem splitLines_ne_nil (l : List Char) : splitLines l ≠ [] := by
  cases l with
  | nil => simp [splitLines]
  | cons c rest =>
    by_cases h : c = '\n' <;> simp [splitLines, h]

theorem splitLines_no_newline {l : List Char} (h : '\n' ∉ l) :
    splitLines l = [l] := by
  induction l with
  | nil => rfl
  | cons c rest ih =>
    have hc : ¬(c = '\n') := fun he => h (by rw [he]; simp)
    have hr : '\n' ∉ rest := fun hm => h (List.mem_cons_of_mem c hm)
    simp [splitLines, hc, ih hr]

theorem splitLines_append_newline {l rest : List Char} (h : '\n' ∉ l) :
    splitLines (l ++ '\n' :: rest) = l :: splitLines rest := by
  induction l with
  | nil => simp [splitLines]
  | cons c cs ih =>
    have hc : ¬(c = '\n') := fun he => h (by rw [he]; simp)
    have hcs : '\n' ∉ cs := fun hm => h (List.mem_cons_of_mem c hm)
    rw [List.cons_append]
    simp only [splitLines, if_neg hc, ih hcs]
    simp

theorem trimRight_eq_self_of_trim {l : List Char} (h : trim l = l) :
    trimRight l = l := by
  have h1 := trim_eq_self_left h
  unfold trim at h
  rwa [h1] at h

theorem trim_eq_self_of_edges {l : List Char}
    (h1 : l.dropWhile Char.isWhitespace = l)
    (h2 : l.reverse.dropWhile Char.isWhitespace = l.reverse) : trim l = l := by
  unfold trim trimRight
  rw [h1, h2, List.reverse_reverse]

theorem trimRight_append_of {a b : List Char} (hb : trimRight b ≠ []) :
    trimRight (a ++ b) = a ++ trimRight b := by
  unfold trimRight at hb ⊢
  rw [List.reverse_append, List.dropWhile_append]
  have hbe : (b.reverse.dropWhile Char.isWhitespace).isEmpty = false := by
    cases hbb : b.reverse.dropWhile Char.isWhitespace with
    | nil => exact absurd (by rw [hbb]; rfl) hb
    | cons x xs => rfl
  rw [hbe]
  simp

theorem joinTerminated_cons (l : List Char) (L : List (List Char)) :
    joinTerminated (l :: L) = l ++ '\n' :: joinTerminated L := by
  simp [joinTerminated]

theorem joinTerminated_append (L M : List (List Char)) :
    joinTerminated (L ++ M) = joinTerminated L ++ joinTerminated M := by
  simp [joinTerminated]

theorem itemsRender_eq (items : List Item) :
    (items.flatMap fun item =>
        item.name ++ ' ' :: (natToDigits item.price ++ ['\n']))
      = joinTerminated (items.map itemLineOf) := by
  induction items with
  | nil => rfl
  | cons i is ih =>
    rw [List.flatMap_cons, List.map_cons, joinTerminated_cons, ih]
    simp [itemLineOf]

theorem format_raw (entries : List DateEntry) :
    (entries.flatMap fun entry =>
        entry.date ++ '\n' :: entry.items.flatMap fun item =>
          item.name ++ ' ' :: (natToDigits item.price ++ ['\n']))
      = joinTerminated (entries.flatMap linesOf) := by
  induction entries with
  | nil => rfl
  | cons e rest ih =>
    rw [List.flatMap_cons, List.flatMap_cons, joinTerminated_append, ih,
      itemsRender_eq]
    have h1 : joinTerminated (linesOf e)
        = e.date ++ '\n' :: joinTerminated (e.items.map itemLineOf) := by
      rw [linesOf, joinTerminated_cons]
    rw [h1]

theorem interNL_ne_nil {L : List (List Char)} (hL : L ≠ [])
    (hlines : ∀ l ∈ L, l ≠ []) : interNL L ≠ [] := by
  cases L with
  | nil => exact absurd rfl hL
  | cons l L2 =>
    cases L2 with
    | nil => exact hlines l (by simp)
    | cons l2 L3 =>
      show l ++ '\n' :: interNL (l2 :: L3) ≠ []
      simp

theorem trimRight_joinT {L : List (List Char)} (hL : L ≠ [])
    (hlines : ∀ l ∈ L, l ≠ [] ∧ trim l = l) :
    trimRight (joinTerminated L) = interNL L := by
  induction L with
  | nil => exact absurd rfl hL
  | cons l L2 ih =>
    cases L2 with
    | nil =>
      rw [joinTerminated_cons]
      have h0 : joinTerminated ([] : List (List Char)) = [] := rfl
      rw [h0]
      have h2 : trimRight (l ++ '\n' :: ([] : List Char)) = trimRight l :=
        trimRight_append_ws (by intro c hc; simp at hc; rw [hc]; rfl)
      rw [h2, trimRight_eq_self_of_trim (hlines l (by simp)).2]
      rfl
    | cons l2 L3 =>
      have hj : trimRight (joinTerminated (l2 :: L3)) = interNL (l2 :: L3) :=
        ih (by simp) (fun x hx => hlines x (by simp [hx]))
      have hi : interNL (l2 :: L3) ≠ [] :=
        interNL_ne_nil (by simp) (fun x hx => (hlines x (by simp [hx])).1)
      have hsub : trimRight ('\n' :: joinTerminated (l2 :: L3))
          = '\n' :: interNL (l2 :: L3) := by
        have he : ('\n' :: joinTerminated (l2 :: L3))
            = ['\n'] ++ joinTerminated (l2 :: L3) := rfl
        rw [he, trimRight_append_of (by rw [hj]; exact hi), hj]
        rfl
      rw [joinTerminated_cons, trimRight_append_of (by rw [hsub]; simp), hsub]
      rfl

theorem trim_joinT {L : List (List Char)} (hL : L ≠ [])
    (hlines : ∀ l ∈ L, l ≠ [] ∧ trim l = l) :
    trim (joinTerminated L) = interNL L := by
  unfold trim
  cases L with
  | nil => exact absurd rfl hL
  | cons l0 L2 =>
    obtain ⟨h0, h0t⟩ := hlines l0 (by simp)
    have hdrop : (joinTerminated (l0 :: L2)).dropWhile Char.isWhitespace
        = joinTerminated (l0 :: L2) := by
      rw [joinTerminated_cons]
      cases l0 with
      | nil => exact absurd rfl h0
      | cons c cs =>
        have hc : Char.isWhitespace c = false :=
          head_false_of_dropWhile_self (trim_eq_self_left h0t)
        rw [List.cons_append, List.dropWhile_cons, if_neg (by simp [hc])]
    rw [hdrop]
    exact trimRight_joinT hL hlines

theorem trimRight_interNL {L : List (List Char)} (hL : L ≠ [])
    (hlines : ∀ l ∈ L, l ≠ [] ∧ trim l = l) :
    trimRight (interNL L) = interNL L := by
  induction L with
  | nil => exact absurd rfl hL
  | cons l L2 ih =>
    cases L2 with
    | nil =>
      show trimRight l = l
      exact trimRight_eq_self_of_trim (hlines l (by simp)).2
    | cons l2 L3 =>
      have hj : trimRight (interNL (l2 :: L3)) = interNL (l2 :: L3) :=
        ih (by simp) (fun x hx => hlines x (by simp [hx]))
      have hi : interNL (l2 :: L3) ≠ [] :=
        interNL_ne_nil (by simp) (fun x hx => (hlines x (by simp [hx])).1)
      have hsub : trimRight ('\n' :: interNL (l2 :: L3))
          = '\n' :: interNL (l2 :: L3) := by
        have he : ('\n' :: interNL (l2 :: L3))
            = ['\n'] ++ interNL (l2 :: L3) := rfl
        rw [he, trimRight_append_of (by rw [hj]; exact hi), hj]
      show trimRight (l ++ '\n' :: interNL (l2 :: L3)) = _
      rw [trimRight_append_of (by rw [hsub]; simp), hsub]
      rfl

theorem interNL_edges {L : List (List Char)} (hL : L ≠ [])
    (hlines : ∀ l ∈ L, l ≠ [] ∧ trim l = l) :
    trim (interNL L) = interNL L := by
  apply trim_eq_self_of_edges
  · cases L with
    | nil => exact absurd rfl hL
    | cons l0 L2 =>
      obtain ⟨h0, h0t⟩ := hlines l0 (by simp)
      cases l0 with
      | nil => exact absurd rfl h0
      | cons c cs =>
        have hc : Char.isWhitespace c = false :=
          head_false_of_dropWhile_self (trim_eq_self_left h0t)
        cases L2 with
        | nil =>
          show ((c :: cs) : List Char).dropWhile Char.isWhitespace = c :: cs
          rw [List.dropWhile_cons, if_neg (by simp [hc])]
        | cons l2 L3 =>
          show ((c :: cs) ++ '\n' :: interNL (l2 :: L3)).dropWhile
              Char.isWhitespace = _
          rw [List.cons_append, List.dropWhile_cons, if_neg (by simp [hc])]
          rfl
  · have h2 := trimRight_interNL hL hlines
    unfold trimRight at h2
    calc (interNL L).reverse.dropWhile Char.isWhitespace
        = (((interNL L).reverse.dropWhile Char.isWhitespace).reverse).reverse := by
          rw [List.reverse_reverse]
      _ = (interNL L).reverse := by rw [h2]

theorem splitLines_interNL {L : List (List Char)} (hL : L ≠ [])
    (hlines : ∀ l ∈ L, '\n' ∉ l) : splitLines (interNL L) = L := by
  induction L with
  | nil => exact absurd rfl hL
  | cons l L2 ih =>
    cases L2 with
    | nil => exact splitLines_no_newline (hlines l (by simp))
    | cons l2 L3 =>
      show splitLines (l ++ '\n' :: interNL (l2 :: L3)) = l :: l2 :: L3
      rw [splitLines_append_newline (hlines l (by simp)),
        ih (by simp) (fun x hx => hlines x (by simp [hx]))]

theorem itemLine_facts {i : Item} (hname : trim i.name = i.name)
    (hn : i.name ≠ []) (hp : 0 < i.price) (hnl : '\n' ∉ i.name) :
    itemLineOf i ≠ []
      ∧ trim (itemLineOf i) = itemLineOf i
      ∧ '\n' ∉ itemLineOf i
      ∧ isDateHeader (itemLineOf i) = false
      ∧ histItemLine (itemLineOf i) = some i := by
  obtain ⟨hval, hdig, hdne⟩ := natToDigits_spec hp
  have hdigrev : ∀ c ∈ (natToDigits i.price).reverse, c.isDigit = true :=
    fun c hc => hdig c (List.mem_reverse.mp hc)
  have hrev : (itemLineOf i).reverse
      = (natToDigits i.price).reverse ++ (' ' :: i.name.reverse) := by
    simp [itemLineOf]
  have hne : itemLineOf i ≠ [] := by
    cases hna : i.name with
    | nil => exact absurd hna hn
    | cons c cs => simp [itemLineOf, hna]
  have hx1 : (itemLineOf i).dropWhile Char.isWhitespace = itemLineOf i := by
    cases hna : i.name with
    | nil => exact absurd hna hn
    | cons c cs =>
      have hc : Char.isWhitespace c = false := by
        have h0 := trim_eq_self_left hname
        rw [hna] at h0
        exact head_false_of_dropWhile_self h0
      show (itemLineOf i).dropWhile Char.isWhitespace = _
      rw [itemLineOf, hna, List.cons_append, List.dropWhile_cons,
        if_neg (by simp [hc])]
  have hx2 : (itemLineOf i).reverse.dropWhile Char.isWhitespace
      = (itemLineOf i).reverse := by
    rw [hrev]
    cases hdr : (natToDigits i.price).reverse with
    | nil => exact absurd (by simpa using congrArg List.reverse hdr) hdne
    | cons e etl =>
      have he : Char.isWhitespace e = false :=
        digit_not_ws (hdigrev e (by rw [hdr]; simp))
      rw [List.cons_append, List.dropWhile_cons, if_neg (by simp [he])]
  have htrm : trim (itemLineOf i) = itemLineOf i := trim_eq_self_of_edges hx1 hx2
  have hnonl : '\n' ∉ itemLineOf i := by
    intro hmem
    rw [itemLineOf] at hmem
    rcases List.mem_append.mp hmem with hm | hm
    · exact hnl hm
    · rcases List.mem_cons.mp hm with he | hm2
      · exact absurd he (by decide)
      · exact digit_ne_newline (hdig '\n' hm2) rfl
  have hhdr : isDateHeader (itemLineOf i) = false := by
    cases hh : isDateHeader (itemLineOf i) with
    | false => rfl
    | true =>
      exfalso
      have hsp : (' ' : Char) ∈ itemLineOf i := by
        rw [itemLineOf]
        exact List.mem_append.mpr (Or.inr (by simp))
      rcases header_decomp hh ' ' hsp with hd | hd
      · exact absurd hd (by decide)
      · exact absurd hd (by decide)
  have hrun : trailingDigitRun (itemLineOf i) = natToDigits i.price := by
    unfold trailingDigitRun
    rw [hrev, takeWhile_append_of_all _ hdigrev, List.takeWhile_cons,
      if_neg (by decide)]
    simp
  have hstrip : stripTrailingDigitRun (itemLineOf i) = i.name ++ [' '] := by
    unfold stripTrailingDigitRun
    rw [hrev, dropWhile_append_of_all _ hdigrev, List.dropWhile_cons,
      if_neg (by decide)]
    simp
  have htr : trimRight (i.name ++ [' ']) = i.name := by
    rw [trimRight_append_ws (by intro c hc; simp at hc; rw [hc]; rfl)]
    exact trimRight_eq_self_of_trim hname
  refine ⟨hne, htrm, hnonl, hhdr, ?_⟩
  simp only [histItemLine, hrun, hstrip, htr, hname, hval]
  rw [if_neg hdne, if_neg hn, if_pos ⟨hn, hp⟩]

theorem parseHistLines_items (t : Nat) (d : List Char) :
    ∀ items : List Item,
      (∀ i ∈ items, trim i.name = i.name ∧ i.name ≠ []
        ∧ 0 < i.price ∧ '\n' ∉ i.name) →
      ∀ (rest : List (List Char)) (cur : List Item) (acc : List DateEntry),
        parseHistLines t (items.map itemLineOf ++ rest) (some d) cur acc
          = parseHistLines t rest (some d) (cur ++ items) acc := by
  intro items
  induction items with
  | nil => intro _ rest cur acc; simp
  | cons i is ih =>
    intro hwf rest cur acc
    obtain ⟨h1, h2, h3, h4⟩ := hwf i (by simp)
    obtain ⟨la, lb, _, ld, le⟩ := itemLine_facts h1 h2 h3 h4
    rw [List.map_cons, List.cons_append]
    show parseHistLines t (itemLineOf i :: (is.map itemLineOf ++ rest))
        (some d) cur acc = _
    simp only [parseHistLines, lb, if_neg la, ld, le, Bool.false_eq_true,
      if_false]
    rw [ih (fun x hx => hwf x (by simp [hx])) rest (cur ++ [i]) acc]
    simp

theorem parseHistLines_entries (t : Nat) :
    ∀ entries : List DateEntry,
      (∀ e ∈ entries, isDateHeader e.date = true
        ∧ ∀ i ∈ e.items, trim i.name = i.name ∧ i.name ≠ []
            ∧ 0 < i.price ∧ '\n' ∉ i.name) →
      ∀ (cd : Option (List Char)) (cur : List Item) (acc : List DateEntry),
        parseHistLines t (entries.flatMap linesOf) cd cur acc
          = flushSection t cd cur acc ++ parsedOf t entries := by
  intro entries
  induction entries with
  | nil =>
    intro _ cd cur acc
    simp [parseHistLines, parsedOf]
  | cons e rest ih =>
    intro hwf cd cur acc
    obtain ⟨hhd, hit⟩ := hwf e (by simp)
    have hd1 : trim e.date = e.date := trim_eq_self_of_no_ws (header_no_ws hhd)
    have hd2 : e.date ≠ [] := header_ne_nil hhd
    rw [List.flatMap_cons]
    show parseHistLines t ((e.date :: e.items.map itemLineOf)
        ++ rest.flatMap linesOf) cd cur acc = _
    rw [List.cons_append]
    simp only [parseHistLines, hd1, if_neg hd2, hhd, if_true]
    rw [parseHistLines_items t e.date e.items hit _ [] _,
      ih (fun x hx => hwf x (by simp [hx])) (some e.date) ([] ++ e.items)
        (flushSection t cd cur acc)]
    by_cases he : e.items = []
    · simp [flushSection, he, parsedOf]
    · simp [flushSection, he, parsedOf]

theorem histTriples_parsedOf (t : Nat) (entries : List DateEntry) :
    histTriples (parsedOf t entries) = histTriples entries := by
  induction entries with
  | nil => rfl
  | cons e rest ih =>
    by_cases he : e.items = []
    · have h1 : parsedOf t (e :: rest) = parsedOf t rest := by
        simp [parsedOf, List.filter_cons, he]
      rw [h1, ih]
      have h2 : histTriples (e :: rest) = histTriples rest := by
        simp [histTriples, List.flatMap_cons, he]
      rw [h2]
    · have h1 : parsedOf t (e :: rest)
          = ⟨e.date, e.items, t⟩ :: parsedOf t rest := by
        simp [parsedOf, List.filter_cons, he]
      rw [h1]
      show (e.items.map fun i => (e.date, i.name, i.price))
          ++ histTriples (parsedOf t rest) = _
      rw [ih]
      rfl

/-- C6 fails as stated over arbitrary item content: a ledger whose single
entry has the D/D date 8/4 but whose item name contains a line break renders
to a text that re-parses with a different triple multiset (the name is cut at
the newline). -/
theorem claim_C6_cex :
    isDateHeader (str "8/4") = true
      ∧ histTriples (parseHistoricalData 0 (formatAggregatedText
            ⟨[⟨str "8/4", [⟨str "a\nb", 3⟩], 0⟩], none⟩))
          ≠ histTriples [⟨str "8/4", [⟨str "a\nb", 3⟩], 0⟩] := by
  decide

/-- C6 amended: for every ledger whose entries all have dates in D/D header
form and whose items satisfy the Item data-model invariants — trimmed
non-empty single-line names and positive prices — rendering with the store's
text formatter and re-parsing with the historical block parser reproduces
exactly the same (date, name, price) triples per date. -/
theorem claim_C6 (data : LedgerData) (t : Nat)
    (hdate : ∀ e ∈ data.entries, isDateHeader e.date = true)
    (hitems : ∀ e ∈ data.entries, ∀ i ∈ e.items,
      trim i.name = i.name ∧ i.name ≠ [] ∧ 0 < i.price ∧ '\n' ∉ i.name) :
    histTriples (parseHistoricalData t (formatAggregatedText data))
      = histTriples data.entries := by
  by_cases hnil : data.entries = []
  · rw [formatAggregatedText, if_pos hnil, hnil]
    rfl
  · have hwf : ∀ e ∈ data.entries, isDateHeader e.date = true
        ∧ ∀ i ∈ e.items, trim i.name = i.name ∧ i.name ≠ []
            ∧ 0 < i.price ∧ '\n' ∉ i.name :=
      fun e he => ⟨hdate e he, hitems e he⟩
    have hLne : data.entries.flatMap linesOf ≠ [] := by
      cases hE : data.entries with
      | nil => exact absurd hE hnil
      | cons e rest =>
        rw [List.flatMap_cons]
        simp [linesOf]
    have hlines1 : ∀ l ∈ data.entries.flatMap linesOf, l ≠ [] ∧ trim l = l := by
      intro l hl
      obtain ⟨e, he, hle⟩ := List.mem_flatMap.mp hl
      rcases List.mem_cons.mp hle with rfl | hli
      · exact ⟨header_ne_nil (hdate e he),
          trim_eq_self_of_no_ws (header_no_ws (hdate e he))⟩
      · obtain ⟨i, hi, rfl⟩ := List.mem_map.mp hli
        obtain ⟨h1, h2, h3, h4⟩ := hitems e he i hi
        obtain ⟨la, lb, _, _, _⟩ := itemLine_facts h1 h2 h3 h4
        exact ⟨la, lb⟩
    have hlines2 : ∀ l ∈ data.entries.flatMap linesOf, '\n' ∉ l := by
      intro l hl
      obtain ⟨e, he, hle⟩ := List.mem_flatMap.mp hl
      rcases List.mem_cons.mp hle with rfl | hli
      · exact header_no_newline (hdate e he)
      · obtain ⟨i, hi, rfl⟩ := List.mem_map.mp hli
        obtain ⟨h1, h2, h3, h4⟩ := hitems e he i hi
        obtain ⟨_, _, lc, _, _⟩ := itemLine_facts h1 h2 h3 h4
        exact lc
    have hfmt : formatAggregatedText data
        = interNL (data.entries.flatMap linesOf) := by
      rw [formatAggregatedText, if_neg hnil, format_raw]
      exact trim_joinT hLne hlines1
    rw [hfmt]
    have hchain : parseHistoricalData t (interNL (data.entries.flatMap linesOf))
        = parseHistLines t (data.entries.flatMap linesOf) none [] [] := by
      unfold parseHistoricalData
      rw [interNL_edges hLne hlines1, splitLines_interNL hLne hlines2]
    rw [hchain, parseHistLines_entries t data.entries hwf none [] []]
    show histTriples ([] ++ parsedOf t data.entries) = _
    rw [List.nil_append]
    exact histTriples_parsedOf t data.entries

/-- Witness for the amended C6 at a concrete two-entry ledger. -/
theorem claim_C6_witness :
    histTriples (parseHistoricalData 7 (formatAggregatedText
        ⟨[⟨str "8/4", [⟨str "鮮奶", 255⟩, ⟨str "地瓜 葉", 30⟩], 0⟩,
          ⟨str "8/5", [], 1⟩,
          ⟨str "12/31", [⟨str "蛋餅2份", 130⟩], 2⟩], some 3⟩))
      = histTriples
          [⟨str "8/4", [⟨str "鮮奶", 255⟩, ⟨str "地瓜 葉", 30⟩], 0⟩,
           ⟨str "8/5", [], 1⟩,
           ⟨str "12/31", [⟨str "蛋餅2份", 130⟩], 2⟩] :=
  claim_C6 ⟨[⟨str "8/4", [⟨str "鮮奶", 255⟩, ⟨str "地瓜 葉", 30⟩], 0⟩,
    ⟨str "8/5", [], 1⟩, ⟨str "12/31", [⟨str "蛋餅2份", 130⟩], 2⟩], some 3⟩ 7
    (by decide) (by decide)

end FEB
